import Mathlib

/-!
Shallow embedding of the `opensim_python-automation` repository
(`metabolics.py` and `util.py`) and proofs of its specification claims.

Modelling conventions:
* The external OpenSim library objects are modelled by their observable
  behaviour: a `Model` is its ordered muscle list together with its ordered
  probe list; a `Storage` is its ordered column-label list together with its
  ordered rows (a time value plus the row's data values).
* Filesystem effects are made explicit: the set of existing paths is a
  `List String` threaded through the functions; the map from file path to
  file content is an association list.
* Python floats are modelled by `ℚ` (exact arithmetic); Python exceptions by
  `Except String`.
-/

/-- Association-list update with Python `dict` semantics: an existing key is
updated in place (keeping its position), a new key is appended at the end. -/
def alistSet {α : Type} : List (String × α) → String → α → List (String × α)
  | [], k, v => [(k, v)]
  | (k', v') :: rest, k, v =>
      if k' = k then (k, v) :: rest else (k', v') :: alistSet rest k v

/-- Association-list lookup (first matching key). -/
def alistGet {α : Type} : List (String × α) → String → Option α
  | [], _ => none
  | (k', v') :: rest, k => if k' = k then some v' else alistGet rest k

theorem alistGet_alistSet_same {α : Type} (d : List (String × α)) (k : String) (v : α) :
    alistGet (alistSet d k v) k = some v := by
  induction d with
  | nil => simp [alistSet, alistGet]
  | cons p rest ih =>
      by_cases h : p.1 = k
      · simp [alistSet, alistGet, h]
      · simp only [alistSet, alistGet, h, if_neg, ite_false]
        simpa [alistGet, h] using ih

theorem alistGet_alistSet_other {α : Type} (d : List (String × α)) (k k' : String) (v : α)
    (hne : k' ≠ k) : alistGet (alistSet d k v) k' = alistGet d k' := by
  have hne' : k ≠ k' := Ne.symm hne
  induction d with
  | nil => simp [alistSet, alistGet, hne']
  | cons p rest ih =>
      obtain ⟨k1, v1⟩ := p
      by_cases h : k1 = k
      · subst h
        simp [alistSet, alistGet, hne']
      · simp [alistSet, alistGet, h, ih]

/-- A directory-set insertion: `os.makedirs` with `exist_ok=True` never fails
and never duplicates an existing directory. -/
def insertDir (fs : List String) (p : String) : List String :=
  if p ∈ fs then fs else fs ++ [p]

/-- All ancestor paths of a path given as its `/`-separated components:
`prefixJoins ["a","b","c"] = ["a", "a/b", "a/b/c"]`. -/
def prefixJoins : List String → List String
  | [] => []
  | x :: xs => x :: (prefixJoins xs).map (fun s => x ++ "/" ++ s)

/-- Model of `os.makedirs(p, exist_ok=True)`: create the directory and all
its ancestors, silently skipping the ones that already exist. -/
def makedirs (fs : List String) (p : String) : List String :=
  (prefixJoins (p.splitOn "/")).foldl insertDir fs

theorem mem_foldl_insertDir_of_mem (l : List String) (fs : List String) (d : String)
    (h : d ∈ fs) : d ∈ l.foldl insertDir fs := by
  induction l generalizing fs with
  | nil => simpa using h
  | cons x xs ih =>
      simp only [List.foldl_cons]
      apply ih
      unfold insertDir
      by_cases hx : x ∈ fs
      · simpa [hx] using h
      · simp [hx, h]

theorem mem_foldl_insertDir_self (l : List String) (fs : List String) (d : String)
    (h : d ∈ l) : d ∈ l.foldl insertDir fs := by
  induction l generalizing fs with
  | nil => simp at h
  | cons x xs ih =>
      simp only [List.foldl_cons]
      rcases List.mem_cons.mp h with h | h
      · subst h
        apply mem_foldl_insertDir_of_mem
        unfold insertDir
        by_cases hx : d ∈ fs
        · simp [hx]
        · simp [hx]
      · exact ih _ h

theorem foldl_insertDir_noop (l : List String) (fs : List String)
    (h : ∀ d ∈ l, d ∈ fs) : l.foldl insertDir fs = fs := by
  induction l with
  | nil => rfl
  | cons x xs ih =>
      have hx : x ∈ fs := h x (by simp)
      simp only [List.foldl_cons]
      rw [show insertDir fs x = fs by simp [insertDir, hx]]
      exact ih (fun d hd => h d (by simp [hd]))

theorem mem_makedirs_of_mem (fs : List String) (p d : String) (h : d ∈ fs) :
    d ∈ makedirs fs p :=
  mem_foldl_insertDir_of_mem _ _ _ h

theorem mem_makedirs_self (fs : List String) (p d : String)
    (h : d ∈ prefixJoins (p.splitOn "/")) : d ∈ makedirs fs p :=
  mem_foldl_insertDir_self _ _ _ h

theorem makedirs_noop (fs : List String) (p : String)
    (h : ∀ d ∈ prefixJoins (p.splitOn "/"), d ∈ fs) : makedirs fs p = fs :=
  foldl_insertDir_noop _ _ h

/-! ## metabolics.py: probes and models -/

/-- A muscle metabolics probe as configured by `add_metabolic_probes`: its
kind (`Umberger2010` or `Bhargava2004`), its name, and the ordered list of
`(muscle, weight)` contributions registered through `addMuscle`. -/
structure Probe where
  kind : String
  name : String
  muscles : List (String × ℚ)
deriving DecidableEq, Repr

/-- An OpenSim model as observed by this code: its ordered muscle-name list
(the model's native muscle enumeration order) and its attached probes. -/
structure Model where
  muscles : List String
  probes : List Probe
deriving DecidableEq, Repr

/-- The per-muscle loop of `add_metabolic_probes`: for each muscle, construct
a probe of the requested kind (raising `ValueError` on an unknown kind), name
it `"{muscle}_metabolics"`, register the muscle with weight 1.0, attach it. -/
def addIndividualProbes (probe_type : String) : List String → Model → Except String Model
  | [], m => .ok m
  | mu :: rest, m =>
      if probe_type = "Umberger2010" then
        addIndividualProbes probe_type rest
          { m with probes := m.probes ++ [⟨"Umberger2010", mu ++ "_metabolics", [(mu, 1)]⟩] }
      else if probe_type = "Bhargava2004" then
        addIndividualProbes probe_type rest
          { m with probes := m.probes ++ [⟨"Bhargava2004", mu ++ "_metabolics", [(mu, 1)]⟩] }
      else
        .error ("Unknown probe type: " ++ probe_type)

/-- Model of `add_metabolic_probes(model_path, output_model_path, probe_type)`.
The loaded model is passed as a value; `fs` is the set of files existing
before the call.  On success it returns the file set (with the output model
file written), the mutated model, and the returned output path.  Note the
whole-body probe construction mirrors the source's two-way branch, which has
no error case: anything other than `"Umberger2010"` selects `"Bhargava2004"`. -/
def add_metabolic_probes (fs : List String) (model : Model)
    (output_model_path : String) (probe_type : String) :
    Except String (List String × Model × String) := do
  let m ← addIndividualProbes probe_type model.muscles model
  let wbKind := if probe_type = "Umberger2010" then "Umberger2010" else "Bhargava2004"
  let wb : Probe := ⟨wbKind, "whole_body_metabolics",
    model.muscles.map (fun mu => (mu, 1))⟩
  let m := { m with probes := m.probes ++ [wb] }
  let fs := insertDir fs output_model_path
  .ok (fs, m, output_model_path)

/-! ## util.py: verify_file_exists -/

/-- Model of `verify_file_exists(filepath, description)`: `fs` is the set of
existing paths; the error message is the `FileNotFoundError` text. -/
def verify_file_exists (fs : List String) (filepath : String) (description : String) :
    Except String Bool :=
  if filepath ∈ fs then .ok true
  else .error (description ++ " not found: " ++ filepath ++
    "\nPlease check the file path and try again.")

/-! ## util.py: create_project_structure -/

/-- The innermost level of the nested directory mapping returned by
`create_project_structure`: the six result subdirectory paths. -/
structure ResultsPaths where
  scaling : String
  ik : String
  id : String
  cmc : String
  metabolics : String
  rra : String
deriving DecidableEq, Repr

/-- The `'data'` level of the nested directory mapping. -/
structure DataPaths where
  results : ResultsPaths
deriving DecidableEq, Repr

/-- The nested directory mapping `{'data': {'results': {...}}}`. -/
structure ProjectDirs where
  data : DataPaths
deriving DecidableEq, Repr

/-- Model of `create_project_structure(base_dir)`: builds the nested path
mapping, then (as the recursive `make_dirs` walk does, in dict insertion
order) creates every leaf directory with `os.makedirs(..., exist_ok=True)`.
Returns the new filesystem state and the nested mapping. -/
def create_project_structure (fs : List String) (base_dir : String) :
    List String × ProjectDirs :=
  let dirs : ProjectDirs :=
    ⟨⟨⟨base_dir ++ "/data/results/scaling",
       base_dir ++ "/data/results/ik",
       base_dir ++ "/data/results/id",
       base_dir ++ "/data/results/cmc",
       base_dir ++ "/data/results/metabolics",
       base_dir ++ "/data/results/rra"⟩⟩⟩
  let fs := [dirs.data.results.scaling, dirs.data.results.ik, dirs.data.results.id,
    dirs.data.results.cmc, dirs.data.results.metabolics,
    dirs.data.results.rra].foldl makedirs fs
  (fs, dirs)

theorem mem_foldl_makedirs_of_mem (ps : List String) (fs : List String) (d : String)
    (h : d ∈ fs) : d ∈ ps.foldl makedirs fs := by
  induction ps generalizing fs with
  | nil => simpa using h
  | cons p ps ih => exact ih _ (mem_makedirs_of_mem _ _ _ h)

theorem mem_foldl_makedirs_self (ps : List String) (fs : List String) (p d : String)
    (hp : p ∈ ps) (hd : d ∈ prefixJoins (p.splitOn "/")) : d ∈ ps.foldl makedirs fs := by
  induction ps generalizing fs with
  | nil => simp at hp
  | cons q ps ih =>
      simp only [List.foldl_cons]
      rcases List.mem_cons.mp hp with h | h
      · subst h
        exact mem_foldl_makedirs_of_mem ps (makedirs fs p) d (mem_makedirs_self fs p d hd)
      · exact ih (makedirs fs q) h

theorem foldl_makedirs_noop (ps : List String) (fs : List String)
    (h : ∀ p ∈ ps, ∀ d ∈ prefixJoins (p.splitOn "/"), d ∈ fs) :
    ps.foldl makedirs fs = fs := by
  induction ps with
  | nil => rfl
  | cons p ps ih =>
      simp only [List.foldl_cons]
      rw [makedirs_noop fs p (h p (by simp))]
      exact ih (fun q hq d hd => h q (by simp [hq]) d hd)

theorem foldl_makedirs_idem (ps : List String) (fs : List String) :
    ps.foldl makedirs (ps.foldl makedirs fs) = ps.foldl makedirs fs :=
  foldl_makedirs_noop _ _ (fun _ hq _ he => mem_foldl_makedirs_self _ _ _ _ hq he)

/-! ## Storage files -/

/-- An OpenSim storage (`.sto`/`.mot`) file as observed by this code: the
ordered column labels (the `time` label included, listed first in a
well-formed file) and the rows, each a time stamp plus the row's data
values (one per non-time label in a well-formed file). -/
structure Storage where
  labels : List String
  rows : List (ℚ × List ℚ)
deriving DecidableEq, Repr

/-- Model of `Storage::getFirstTime`: the first time sample. -/
def Storage.getFirstTime (s : Storage) : ℚ := (s.rows.map Prod.fst).headD 0

/-- Model of `Storage::getLastTime`: the last time sample. -/
def Storage.getLastTime (s : Storage) : ℚ := (s.rows.map Prod.fst).getLastD 0

/-- Model of OpenSim `ArrayStr::findIndex`: index of the first occurrence,
or `-1` when absent. -/
def arrayFindIndex (l : List String) (x : String) : Int :=
  match l with
  | [] => -1
  | a :: as =>
      if a = x then 0
      else
        if arrayFindIndex as x < 0 then -1 else arrayFindIndex as x + 1

/-- Arithmetic mean of a list of rationals (sum divided by length). -/
def listMean (l : List ℚ) : ℚ := l.sum / l.length

/-- The data column at data index `idx` (label index `idx + 1`). -/
def Storage.column (s : Storage) (idx : ℕ) : List ℚ :=
  s.rows.map (fun r => r.2.getD idx 0)

/-- Model of `Storage::getColumnMean` as invoked by the source with a
column-label index (label index `0` is the time column, so the data column
is `i - 1`). -/
def Storage.getColumnMean (s : Storage) (i : ℕ) : ℚ :=
  listMean (s.column (i - 1))

/-! ## metabolics.py: analyze_metabolics and calculate_metabolic_cost -/

/-- The configuration state of the `AnalyzeTool` built by
`analyze_metabolics`. -/
structure AnalyzeConfig where
  model : Model
  statesFileName : String
  analyses : List String
  initialTime : ℚ
  finalTime : ℚ
  resultsDir : String
deriving Repr

/-- Model of `analyze_metabolics(model_with_probes_path, states_file,
output_dir)`: creates the output directory, configures an `AnalyzeTool`
with a `ProbeReporter` and the time window taken from the states storage,
and returns the path of the produced results file. -/
def analyze_metabolics (fs : List String) (model : Model) (states_storage : Storage)
    (states_file : String) (output_dir : String) :
    List String × AnalyzeConfig × String :=
  let fs := makedirs fs output_dir
  let cfg : AnalyzeConfig :=
    { model := model
      statesFileName := states_file
      analyses := ["ProbeReporter"]
      initialTime := states_storage.getFirstTime
      finalTime := states_storage.getLastTime
      resultsDir := output_dir }
  (fs, cfg, output_dir ++ "/ProbeReporter_probes.sto")

/-- Model of `calculate_metabolic_cost(metabolics_file)`: look up the
`whole_body_metabolics` column label; on a miss warn and return the empty
dictionary; otherwise compute duration as last minus first time sample,
the column mean, and their product, in that key order. -/
def calculate_metabolic_cost (s : Storage) : Except String (List (String × ℚ)) :=
  let wb_index := arrayFindIndex s.labels "whole_body_metabolics"
  if wb_index < 0 then .ok []
  else
    match s.rows.map Prod.fst with
    | [] => .error "time index out of range"
    | t0 :: ts =>
      let total_time := (t0 :: ts).getLastD 0 - t0
      let mean_power := s.getColumnMean wb_index.toNat
      let total_energy := mean_power * total_time
      .ok [("mean_power_W", mean_power), ("total_energy_J", total_energy),
           ("duration_s", total_time)]

/-! ## util.py: load_storage_to_dict -/

/-- The column-initialisation loop of `load_storage_to_dict`: every non-time
label gets an empty list. -/
def initColumns (labels : List String) (d : List (String × List ℚ)) :
    List (String × List ℚ) :=
  labels.foldl (fun d l => if l = "time" then d else alistSet d l []) d

/-- Python `data[k].append(x)` on the dictionary model. -/
def appendAt (d : List (String × List ℚ)) (k : String) (x : ℚ) :
    List (String × List ℚ) :=
  alistSet d k ((alistGet d k).getD [] ++ [x])

/-- The per-row loop body of `load_storage_to_dict`: append the row's time,
then for each data index `j` append the value to the column labelled
`labels[j + 1]` (the `+1` skips the `time` label). -/
def processRow (labels : List String) (d : List (String × List ℚ))
    (row : ℚ × List ℚ) : List (String × List ℚ) :=
  let d' := appendAt d "time" row.1
  (List.range row.2.length).foldl
    (fun dd j => appendAt dd (labels.getD (j + 1) "") (row.2.getD j 0)) d'

/-- Model of `load_storage_to_dict(storage_file)`: start from
`{'time': []}`, initialise every non-time column, then process each row. -/
def load_storage_to_dict (s : Storage) : List (String × List ℚ) :=
  s.rows.foldl (processRow s.labels) (initColumns s.labels [("time", [])])

/-! ## Helper lemmas about the probe loop -/

theorem addIndividualProbes_ok (pt : String)
    (hpt : pt = "Umberger2010" ∨ pt = "Bhargava2004") :
    ∀ (mus : List String) (m : Model),
    addIndividualProbes pt mus m =
      .ok { m with
        probes := m.probes ++ mus.map (fun mu => ⟨pt, mu ++ "_metabolics", [(mu, 1)]⟩) } := by
  intro mus
  induction mus with
  | nil => intro m; simp [addIndividualProbes]
  | cons mu rest ih =>
      intro m
      rcases hpt with h | h <;> subst h <;>
        simp [addIndividualProbes, ih, List.append_assoc]

/-- Claim C1: for every model with muscle set of size N and a recognized
probe type, `add_metabolic_probes` succeeds, attaching exactly the N
individual probes (each named `"{muscle}_metabolics"`, registering its
muscle as sole contributor with weight 1.0, in muscle order) followed by
the single `whole_body_metabolics` probe registering every muscle in the
model's enumeration order with weight 1.0 — a total of N + 1 new probes. -/
theorem add_metabolic_probes_spec (fs : List String) (m : Model) (out pt : String)
    (hpt : pt = "Umberger2010" ∨ pt = "Bhargava2004") :
    add_metabolic_probes fs m out pt =
      .ok (insertDir fs out,
        { m with probes := m.probes
            ++ m.muscles.map (fun mu => ⟨pt, mu ++ "_metabolics", [(mu, 1)]⟩)
            ++ [⟨pt, "whole_body_metabolics", m.muscles.map (fun mu => (mu, 1))⟩] },
        out) ∧
    (m.muscles.map (fun mu => (⟨pt, mu ++ "_metabolics", [(mu, 1)]⟩ : Probe))
        ++ [(⟨pt, "whole_body_metabolics", m.muscles.map (fun mu => (mu, 1))⟩ : Probe)]).length
      = m.muscles.length + 1 := by
  refine ⟨?_, by simp⟩
  rcases hpt with h | h <;> subst h
  · simp [add_metabolic_probes, addIndividualProbes_ok "Umberger2010" (Or.inl rfl),
      Bind.bind, Except.bind, List.append_assoc]
  · simp [add_metabolic_probes, addIndividualProbes_ok "Bhargava2004" (Or.inr rfl),
      Bind.bind, Except.bind, List.append_assoc]

/-- Witness for C1 at a concrete two-muscle model. -/
theorem add_metabolic_probes_spec_witness :
    add_metabolic_probes [] ⟨["soleus", "tib_ant"], []⟩ "out/model.osim" "Umberger2010" =
      .ok (["out/model.osim"],
        ⟨["soleus", "tib_ant"],
          [⟨"Umberger2010", "soleus_metabolics", [("soleus", 1)]⟩,
           ⟨"Umberger2010", "tib_ant_metabolics", [("tib_ant", 1)]⟩,
           ⟨"Umberger2010", "whole_body_metabolics", [("soleus", 1), ("tib_ant", 1)]⟩]⟩,
        "out/model.osim") := by
  rw [(add_metabolic_probes_spec [] ⟨["soleus", "tib_ant"], []⟩ "out/model.osim"
    "Umberger2010" (Or.inl rfl)).1]
  rfl

/-- Claim C2, counterexample: on a model with zero muscles and the
unrecognized probe type `"NotARealProbeType"`, `add_metabolic_probes` does
not fail: the per-muscle loop (which contains the only unknown-kind check)
never runs, the whole-body branch falls back to `Bhargava2004`, and the
output model file is written. -/
theorem add_metabolic_probes_unknown_type_zero_muscles :
    add_metabolic_probes [] ⟨[], []⟩ "probed.osim" "NotARealProbeType" =
      .ok (["probed.osim"],
        ⟨[], [⟨"Bhargava2004", "whole_body_metabolics", []⟩]⟩,
        "probed.osim") := by
  rfl

/-- Claim C2, amended: for every model with at least one muscle and every
probe type other than the two recognized ones, `add_metabolic_probes` fails
with the `ValueError` `"Unknown probe type: ..."`, raised in the first loop
iteration before any probe is attached and before the output file is
written (the error result carries no mutated model and no file write). -/
theorem add_metabolic_probes_unknown_type_error (fs : List String) (m : Model)
    (out pt : String) (hne : m.muscles ≠ [])
    (h1 : pt ≠ "Umberger2010") (h2 : pt ≠ "Bhargava2004") :
    add_metabolic_probes fs m out pt = .error ("Unknown probe type: " ++ pt) := by
  obtain ⟨mu, rest, hmu⟩ : ∃ mu rest, m.muscles = mu :: rest := by
    cases hm : m.muscles with
    | nil => exact absurd hm hne
    | cons a l => exact ⟨a, l, rfl⟩
  simp [add_metabolic_probes, hmu, addIndividualProbes, h1, h2, Bind.bind, Except.bind]

/-- Witness for the amended C2 at a concrete one-muscle model. -/
theorem add_metabolic_probes_unknown_type_error_witness :
    add_metabolic_probes [] ⟨["soleus"], []⟩ "probed.osim" "Foo" =
      .error ("Unknown probe type: " ++ "Foo") :=
  add_metabolic_probes_unknown_type_error [] ⟨["soleus"], []⟩ "probed.osim" "Foo"
    (by decide) (by decide) (by decide)

/-- Claim C7: `create_project_structure` is idempotent — a second call on
the filesystem produced by the first creates no new directories and raises
no error (the embedding is total), both calls return the same mapping, and
its six leaf values are `<base_dir>/data/results/{scaling,ik,id,cmc,
metabolics,rra}`. -/
theorem create_project_structure_idempotent (fs : List String) (base_dir : String) :
    create_project_structure (create_project_structure fs base_dir).1 base_dir
      = create_project_structure fs base_dir ∧
    (create_project_structure fs base_dir).2.data.results.scaling
      = base_dir ++ "/data/results/scaling" ∧
    (create_project_structure fs base_dir).2.data.results.ik
      = base_dir ++ "/data/results/ik" ∧
    (create_project_structure fs base_dir).2.data.results.id
      = base_dir ++ "/data/results/id" ∧
    (create_project_structure fs base_dir).2.data.results.cmc
      = base_dir ++ "/data/results/cmc" ∧
    (create_project_structure fs base_dir).2.data.results.metabolics
      = base_dir ++ "/data/results/metabolics" ∧
    (create_project_structure fs base_dir).2.data.results.rra
      = base_dir ++ "/data/results/rra" := by
  refine ⟨?_, rfl, rfl, rfl, rfl, rfl, rfl⟩
  unfold create_project_structure
  simp only [Prod.mk.injEq]
  exact ⟨foldl_makedirs_idem _ _, trivial⟩

/-- Claim C8: `verify_file_exists` on a missing path fails with a message
containing both the description and the path; on an existing path it
returns `True` (and, being pure in the embedding, has no side effect). -/
theorem verify_file_exists_spec (fs : List String) (filepath description : String) :
    (filepath ∉ fs → ∃ msg, verify_file_exists fs filepath description = .error msg ∧
      description.data <:+: msg.data ∧ filepath.data <:+: msg.data) ∧
    (filepath ∈ fs → verify_file_exists fs filepath description = .ok true) := by
  constructor
  · intro h
    refine ⟨description ++ " not found: " ++ filepath ++
      "\nPlease check the file path and try again.", by simp [verify_file_exists, h], ?_, ?_⟩
    · exact ⟨[], (" not found: " ++ filepath ++
        "\nPlease check the file path and try again.").data, by
          show [] ++ description.data ++ _ = _
          simp [String.data_append, List.append_assoc]⟩
    · exact ⟨(description ++ " not found: ").data,
        ("\nPlease check the file path and try again." : String).data, by
          simp [String.data_append, List.append_assoc]⟩
  · intro h
    simp [verify_file_exists, h]

/-- Witness for C8: a missing path yields the error with both pieces in the
message; an existing path yields `ok true`. -/
theorem verify_file_exists_spec_witness :
    (∃ msg, verify_file_exists ["a.sto"] "b.sto" "States file" = .error msg ∧
      ("States file" : String).data <:+: msg.data ∧ ("b.sto" : String).data <:+: msg.data) ∧
    verify_file_exists ["a.sto"] "a.sto" "States file" = .ok true :=
  ⟨(verify_file_exists_spec ["a.sto"] "b.sto" "States file").1 (by decide),
   (verify_file_exists_spec ["a.sto"] "a.sto" "States file").2 (by decide)⟩

/-! ## Helper lemmas about column lookup and means -/

theorem arrayFindIndex_neg (l : List String) (x : String) (h : x ∉ l) :
    arrayFindIndex l x = -1 := by
  induction l with
  | nil => rfl
  | cons a as ih =>
      have ha : a ≠ x := by
        intro hax
        exact h (by simp [hax])
      have has : x ∉ as := fun hx => h (by simp [hx])
      simp [arrayFindIndex, ha, ih has]

theorem arrayFindIndex_append (l1 l2 : List String) (x : String) (h : x ∉ l1) :
    arrayFindIndex (l1 ++ x :: l2) x = (l1.length : Int) := by
  induction l1 with
  | nil => simp [arrayFindIndex]
  | cons a as ih =>
      have ha : a ≠ x := by
        intro hax
        exact h (by simp [hax])
      have has : x ∉ as := fun hx => h (by simp [hx])
      have hrec := ih has
      have hnn : ¬ (arrayFindIndex (as ++ x :: l2) x < 0) := by
        rw [hrec]
        exact not_lt.mpr (Int.natCast_nonneg _)
      simp only [List.cons_append, arrayFindIndex, List.append_eq]
      rw [if_neg ha, if_neg hnn, hrec]
      simp only [List.length_cons]
      push_cast
      ring

theorem listMean_const (l : List ℚ) (P : ℚ) (hne : l ≠ [])
    (h : ∀ y ∈ l, y = P) : listMean l = P := by
  have hsum : l.sum = l.length * P := by
    induction l with
    | nil => simp
    | cons a as ih =>
        have ha : a = P := h a (by simp)
        have has : ∀ y ∈ as, y = P := fun y hy => h y (by simp [hy])
        by_cases hcase : as = []
        · subst hcase; simp [ha]
        · rw [List.sum_cons, ih hcase has, ha]
          simp only [List.length_cons]
          push_cast
          ring
  have hlen : (l.length : ℚ) ≠ 0 := by
    have hpos := List.length_pos.mpr hne
    exact Nat.cast_ne_zero.mpr (Nat.pos_iff_ne_zero.mp hpos)
  rw [listMean, hsum, mul_comm, mul_div_assoc, div_self hlen, mul_one]

theorem pairwise_le_head (t0 : ℚ) (ts : List ℚ)
    (hp : (t0 :: ts).Pairwise (· ≤ ·)) : ∀ t ∈ t0 :: ts, t0 ≤ t := by
  intro t ht
  rcases List.mem_cons.mp ht with h | h
  · exact le_of_eq h.symm
  · exact (List.pairwise_cons.mp hp).1 t h

theorem mem_le_getLast :
    ∀ (l : List ℚ), l.Pairwise (· ≤ ·) → ∀ (hne : l ≠ []), ∀ t ∈ l, t ≤ l.getLast hne := by
  intro l
  induction l with
  | nil => intro _ hne; simp at hne
  | cons x rest ih =>
      intro hp hne t ht
      cases rest with
      | nil =>
          simp only [List.mem_singleton] at ht
          simp [ht, List.getLast]
      | cons y ys =>
          rw [List.getLast_cons (by simp)]
          rcases List.mem_cons.mp ht with h | h
          · subst h
            have hlast : (y :: ys).getLast (by simp) ∈ y :: ys := List.getLast_mem _
            exact (List.pairwise_cons.mp hp).1 _ hlast
          · exact ih (List.pairwise_cons.mp hp).2 (by simp) t h

/-- Claim C4: `analyze_metabolics` sets the analysis time window to exactly
the first and last time sample of the states file; with a monotonic time
column this window is `[min(time), max(time)]`, covering every sample. -/
theorem analyze_metabolics_time_window (fs : List String) (model : Model)
    (states : Storage) (states_file output_dir : String) (t0 : ℚ) (ts : List ℚ)
    (htimes : states.rows.map Prod.fst = t0 :: ts)
    (hmono : (states.rows.map Prod.fst).Pairwise (· ≤ ·)) :
    (analyze_metabolics fs model states states_file output_dir).2.1.initialTime = t0 ∧
    (analyze_metabolics fs model states states_file output_dir).2.1.finalTime
      = (t0 :: ts).getLast (List.cons_ne_nil t0 ts) ∧
    ∀ t ∈ states.rows.map Prod.fst,
      (analyze_metabolics fs model states states_file output_dir).2.1.initialTime ≤ t ∧
      t ≤ (analyze_metabolics fs model states states_file output_dir).2.1.finalTime := by
  have hinit : (analyze_metabolics fs model states states_file output_dir).2.1.initialTime
      = t0 := by
    simp [analyze_metabolics, Storage.getFirstTime, htimes]
  have hfin : (analyze_metabolics fs model states states_file output_dir).2.1.finalTime
      = (t0 :: ts).getLast (List.cons_ne_nil t0 ts) := by
    simp [analyze_metabolics, Storage.getLastTime, htimes,
      List.getLastD_eq_getLast?, List.getLast?_eq_getLast]
  refine ⟨hinit, hfin, ?_⟩
  intro t ht
  rw [htimes] at ht hmono
  constructor
  · rw [hinit]
    exact pairwise_le_head t0 ts hmono t ht
  · rw [hfin]
    exact mem_le_getLast _ hmono _ t ht

/-- Witness for C4 at a concrete two-sample states file. -/
theorem analyze_metabolics_time_window_witness :
    (analyze_metabolics [] ⟨[], []⟩ ⟨["time", "x"], [(0, [5]), (2, [7])]⟩
      "s.sto" "out").2.1.initialTime = 0 ∧
    (analyze_metabolics [] ⟨[], []⟩ ⟨["time", "x"], [(0, [5]), (2, [7])]⟩
      "s.sto" "out").2.1.finalTime = 2 := by
  have h := analyze_metabolics_time_window [] ⟨[], []⟩
    ⟨["time", "x"], [(0, [5]), (2, [7])]⟩ "s.sto" "out" 0 [2] (by rfl) (by decide)
  exact ⟨h.1, by rw [h.2.1]; rfl⟩

/-- Evaluation of `calculate_metabolic_cost` when the `whole_body_metabolics`
label is present (first occurrence after `time` and `pre`) and there is at
least one row. -/
theorem calculate_metabolic_cost_found (s : Storage) (pre post : List String)
    (hlab : s.labels = "time" :: pre ++ "whole_body_metabolics" :: post)
    (hpre : "whole_body_metabolics" ∉ pre)
    (r0 : ℚ × List ℚ) (rrest : List (ℚ × List ℚ)) (hrows : s.rows = r0 :: rrest) :
    calculate_metabolic_cost s =
      .ok [("mean_power_W", listMean (s.column pre.length)),
           ("total_energy_J", listMean (s.column pre.length) *
             (((r0 :: rrest).map Prod.fst).getLastD 0 - r0.1)),
           ("duration_s", ((r0 :: rrest).map Prod.fst).getLastD 0 - r0.1)] := by
  have hnot : "whole_body_metabolics" ∉ ("time" :: pre) := by
    intro hmem
    rcases List.mem_cons.mp hmem with h | h
    · exact absurd h (by decide)
    · exact hpre h
  have hidx : arrayFindIndex s.labels "whole_body_metabolics"
      = ((pre.length + 1 : ℕ) : Int) := by
    rw [hlab, show ("time" :: pre ++ "whole_body_metabolics" :: post)
      = (("time" :: pre) ++ "whole_body_metabolics" :: post) by simp]
    rw [arrayFindIndex_append ("time" :: pre) post _ hnot]
    simp
  have hnn : ¬ (((pre.length + 1 : ℕ) : Int) < 0) := not_lt.mpr (Int.natCast_nonneg _)
  unfold calculate_metabolic_cost
  rw [hidx, if_neg hnn, hrows]
  simp only [List.map_cons]
  have htoNat : ((pre.length + 1 : ℕ) : Int).toNat = pre.length + 1 := Int.toNat_natCast _
  rw [htoNat]
  simp [Storage.getColumnMean]

/-- Claim C3: on a storage whose `whole_body_metabolics` column is constant
`P` over a time column spanning duration `D`, `calculate_metabolic_cost`
returns exactly the three keys `mean_power_W = P`, `total_energy_J = P*D`
and `duration_s = D` (duration computed as last minus first time sample,
total energy as mean times duration). -/
theorem calculate_metabolic_cost_constant_power (s : Storage) (pre post : List String)
    (P D : ℚ)
    (hlab : s.labels = "time" :: pre ++ "whole_body_metabolics" :: post)
    (hpre : "whole_body_metabolics" ∉ pre)
    (hne : s.rows ≠ [])
    (hconst : ∀ r ∈ s.rows, r.2.getD pre.length 0 = P)
    (hD : (s.rows.map Prod.fst).getLastD 0 - (s.rows.map Prod.fst).headD 0 = D) :
    calculate_metabolic_cost s =
      .ok [("mean_power_W", P), ("total_energy_J", P * D), ("duration_s", D)] := by
  obtain ⟨r0, rrest, hrows⟩ : ∃ r0 rrest, s.rows = r0 :: rrest := by
    cases hr : s.rows with
    | nil => exact absurd hr hne
    | cons a l => exact ⟨a, l, rfl⟩
  have hmean : listMean (s.column pre.length) = P := by
    apply listMean_const
    · rw [Storage.column, hrows]
      simp
    · intro y hy
      rw [Storage.column] at hy
      obtain ⟨r, hr, hy⟩ := List.mem_map.mp hy
      rw [← hy]
      exact hconst r hr
  have hdur : ((r0 :: rrest).map Prod.fst).getLastD 0 - r0.1 = D := by
    rw [hrows] at hD
    simpa using hD
  rw [calculate_metabolic_cost_found s pre post hlab hpre r0 rrest hrows, hmean, hdur]

/-- Witness for C3: constant power 5 W over 2 s yields mean 5, energy 10,
duration 2. -/
theorem calculate_metabolic_cost_constant_power_witness :
    calculate_metabolic_cost ⟨["time", "whole_body_metabolics"], [(0, [5]), (2, [5])]⟩ =
      .ok [("mean_power_W", 5), ("total_energy_J", 10), ("duration_s", 2)] := by
  rw [calculate_metabolic_cost_constant_power
    ⟨["time", "whole_body_metabolics"], [(0, [5]), (2, [5])]⟩ [] [] 5 2
    rfl (by decide) (by decide) (by decide) (by norm_num)]
  norm_num

/-- Claim C10: on a storage holding the `whole_body_metabolics` column and
exactly one time sample, `calculate_metabolic_cost` does not fail and
returns duration 0, total energy 0, and the single sample's value as mean. -/
theorem calculate_metabolic_cost_single_sample (s : Storage) (pre post : List String)
    (t : ℚ) (dat : List ℚ) (v : ℚ)
    (hlab : s.labels = "time" :: pre ++ "whole_body_metabolics" :: post)
    (hpre : "whole_body_metabolics" ∉ pre)
    (hrows : s.rows = [(t, dat)])
    (hv : dat.getD pre.length 0 = v) :
    calculate_metabolic_cost s =
      .ok [("mean_power_W", v), ("total_energy_J", 0), ("duration_s", 0)] := by
  rw [calculate_metabolic_cost_found s pre post hlab hpre (t, dat) [] hrows]
  have hm : listMean (s.column pre.length) = v := by
    rw [Storage.column, hrows]
    simp [listMean]
    rw [List.getD_eq_getElem?_getD] at hv
    exact hv
  rw [hm]
  norm_num

/-- Witness for C10 at a one-sample storage. -/
theorem calculate_metabolic_cost_single_sample_witness :
    calculate_metabolic_cost ⟨["time", "whole_body_metabolics"], [(3, [7])]⟩ =
      .ok [("mean_power_W", 7), ("total_energy_J", 0), ("duration_s", 0)] :=
  calculate_metabolic_cost_single_sample
    ⟨["time", "whole_body_metabolics"], [(3, [7])]⟩ [] [] 3 [7] 7
    rfl (by decide) rfl (by norm_num)

/-- Claim C5: on a storage lacking a column labelled exactly
`whole_body_metabolics`, `calculate_metabolic_cost` returns the empty
dictionary and raises no error. -/
theorem calculate_metabolic_cost_missing_column (s : Storage)
    (h : "whole_body_metabolics" ∉ s.labels) :
    calculate_metabolic_cost s = .ok [] := by
  have hidx := arrayFindIndex_neg s.labels _ h
  simp [calculate_metabolic_cost, hidx]

/-- Witness for C5 at a storage with only other columns. -/
theorem calculate_metabolic_cost_missing_column_witness :
    calculate_metabolic_cost ⟨["time", "soleus_metabolics"], [(0, [1])]⟩ = .ok [] :=
  calculate_metabolic_cost_missing_column
    ⟨["time", "soleus_metabolics"], [(0, [1])]⟩ (by decide)

/-! ## Lemmas for load_storage_to_dict -/

theorem initColumns_cons (l : String) (ls : List String) (d : List (String × List ℚ)) :
    initColumns (l :: ls) d = initColumns ls (if l = "time" then d else alistSet d l []) := by
  simp [initColumns]

theorem initColumns_get_not_mem :
    ∀ (ls : List String) (d : List (String × List ℚ)) (k : String), k ∉ ls →
      alistGet (initColumns ls d) k = alistGet d k := by
  intro ls
  induction ls with
  | nil => intro d k _; rfl
  | cons l ls ih =>
      intro d k hk
      have hkl : k ≠ l := fun h => hk (by simp [h])
      have hkls : k ∉ ls := fun h => hk (by simp [h])
      rw [initColumns_cons]
      by_cases hl : l = "time"
      · rw [if_pos hl]
        exact ih d k hkls
      · rw [if_neg hl, ih _ k hkls]
        exact alistGet_alistSet_other d l k [] hkl

theorem initColumns_get_time :
    ∀ (ls : List String) (d : List (String × List ℚ)),
      alistGet (initColumns ls d) "time" = alistGet d "time" := by
  intro ls
  induction ls with
  | nil => intro d; rfl
  | cons l ls ih =>
      intro d
      rw [initColumns_cons]
      by_cases hl : l = "time"
      · rw [if_pos hl]; exact ih d
      · rw [if_neg hl, ih _]
        exact alistGet_alistSet_other d l "time" [] (Ne.symm hl)

theorem initColumns_get_mem :
    ∀ (ls : List String) (d : List (String × List ℚ)) (v : String),
      v ∈ ls → v ≠ "time" → ls.Nodup →
      alistGet (initColumns ls d) v = some [] := by
  intro ls
  induction ls with
  | nil => intro d v hv; simp at hv
  | cons l ls ih =>
      intro d v hv hvt hnd
      rw [initColumns_cons]
      rcases List.mem_cons.mp hv with h | h
      · subst h
        rw [if_neg hvt,
          initColumns_get_not_mem ls _ v ((List.nodup_cons.mp hnd).1)]
        exact alistGet_alistSet_same d v []
      · by_cases hl : l = "time"
        · rw [if_pos hl]; exact ih d v h hvt (List.nodup_cons.mp hnd).2
        · rw [if_neg hl]; exact ih _ v h hvt (List.nodup_cons.mp hnd).2

theorem alistGet_appendAt_same (d : List (String × List ℚ)) (k : String) (x : ℚ) :
    alistGet (appendAt d k x) k = some ((alistGet d k).getD [] ++ [x]) :=
  alistGet_alistSet_same d k _

theorem alistGet_appendAt_other (d : List (String × List ℚ)) (k k' : String) (x : ℚ)
    (hne : k' ≠ k) : alistGet (appendAt d k x) k' = alistGet d k' :=
  alistGet_alistSet_other d k k' _ hne

theorem innerFold_get (vs : List String) (hnd : vs.Nodup) (hnt : "time" ∉ vs)
    (row2 : List ℚ) (n : ℕ) :
    ∀ (m : ℕ), m ≤ vs.length → ∀ (d : List (String × List ℚ)),
    (∀ j, j < vs.length → ∃ c, alistGet d (vs.getD j "") = some c ∧ c.length = n) →
    alistGet ((List.range m).foldl
        (fun dd j => appendAt dd (("time" :: vs).getD (j + 1) "") (row2.getD j 0)) d) "time"
      = alistGet d "time" ∧
    ∀ j, j < vs.length → ∃ c,
      alistGet ((List.range m).foldl
        (fun dd j => appendAt dd (("time" :: vs).getD (j + 1) "") (row2.getD j 0)) d)
        (vs.getD j "") = some c ∧ c.length = if j < m then n + 1 else n := by
  intro m
  induction m with
  | zero =>
      intro _ d hcols
      refine ⟨rfl, ?_⟩
      intro j hj
      obtain ⟨c, hc, hlen⟩ := hcols j hj
      exact ⟨c, hc, by simp [hlen]⟩
  | succ m ih =>
      intro hm d hcols
      have hm' : m ≤ vs.length := Nat.le_of_succ_le hm
      have hmlt : m < vs.length := hm
      obtain ⟨ihtime, ihcols⟩ := ih hm' d hcols
      rw [List.range_succ, List.foldl_append]
      simp only [List.foldl_cons, List.foldl_nil]
      have hkey : ("time" :: vs).getD (m + 1) "" = vs.getD m "" := rfl
      rw [hkey]
      have hkeymem : vs.getD m "" ∈ vs := by
        rw [List.getD_eq_getElem vs "" hmlt]
        exact List.getElem_mem hmlt
      have hkeytime : vs.getD m "" ≠ "time" := fun h => hnt (h ▸ hkeymem)
      constructor
      · rw [alistGet_appendAt_other _ _ _ _ (Ne.symm hkeytime)]
        exact ihtime
      · intro j hj
        by_cases hjm : j = m
        · subst hjm
          obtain ⟨c, hc, hclen⟩ := ihcols j hj
          rw [if_neg (lt_irrefl j)] at hclen
          refine ⟨c ++ [row2.getD j 0], ?_, ?_⟩
          · rw [alistGet_appendAt_same, hc]
            rfl
          · rw [if_pos (Nat.lt_succ_self j)]
            simp [hclen]
        · have hne : vs.getD j "" ≠ vs.getD m "" := by
            rw [List.getD_eq_getElem vs "" hj, List.getD_eq_getElem vs "" hmlt]
            intro heq
            exact hjm ((List.Nodup.getElem_inj_iff hnd).mp heq)
          obtain ⟨c, hc, hclen⟩ := ihcols j hj
          refine ⟨c, ?_, ?_⟩
          · rw [alistGet_appendAt_other _ _ _ _ hne]
            exact hc
          · by_cases hjm' : j < m
            · rw [if_pos hjm'] at hclen
              rw [if_pos (Nat.lt_succ_of_lt hjm')]
              exact hclen
            · rw [if_neg hjm'] at hclen
              rw [if_neg (by omega)]
              exact hclen

/-- The column-length invariant maintained while `load_storage_to_dict`
processes the rows: after `n` rows, the time column and every data column
hold exactly `n` entries. -/
def LoadInv (vs : List String) (n : ℕ) (d : List (String × List ℚ)) : Prop :=
  (∃ ts, alistGet d "time" = some ts ∧ ts.length = n) ∧
  ∀ j, j < vs.length → ∃ c, alistGet d (vs.getD j "") = some c ∧ c.length = n

theorem processRow_inv (vs : List String) (hnd : vs.Nodup) (hnt : "time" ∉ vs)
    (row : ℚ × List ℚ) (hlen : row.2.length = vs.length) (n : ℕ)
    (d : List (String × List ℚ)) (hinv : LoadInv vs n d) :
    LoadInv vs (n + 1) (processRow ("time" :: vs) d row) := by
  obtain ⟨⟨ts, hts, htslen⟩, hcols⟩ := hinv
  have htime' : alistGet (appendAt d "time" row.1) "time" = some (ts ++ [row.1]) := by
    rw [alistGet_appendAt_same, hts]
    rfl
  have hcols' : ∀ j, j < vs.length → ∃ c,
      alistGet (appendAt d "time" row.1) (vs.getD j "") = some c ∧ c.length = n := by
    intro j hj
    obtain ⟨c, hc, hclen⟩ := hcols j hj
    have hkeymem : vs.getD j "" ∈ vs := by
      rw [List.getD_eq_getElem vs "" hj]
      exact List.getElem_mem hj
    have hne : vs.getD j "" ≠ "time" := fun h => hnt (h ▸ hkeymem)
    exact ⟨c, by rw [alistGet_appendAt_other _ _ _ _ hne]; exact hc, hclen⟩
  obtain ⟨hT, hC⟩ := innerFold_get vs hnd hnt row.2 n vs.length le_rfl
    (appendAt d "time" row.1) hcols'
  unfold processRow
  rw [hlen]
  constructor
  · exact ⟨ts ++ [row.1], by rw [hT]; exact htime', by simp [htslen]⟩
  · intro j hj
    obtain ⟨c, hc, hclen⟩ := hC j hj
    rw [if_pos hj] at hclen
    exact ⟨c, hc, hclen⟩

theorem loadFold_inv (vs : List String) (hnd : vs.Nodup) (hnt : "time" ∉ vs) :
    ∀ (rows : List (ℚ × List ℚ)), (∀ r ∈ rows, r.2.length = vs.length) →
    ∀ (n : ℕ) (d : List (String × List ℚ)), LoadInv vs n d →
    LoadInv vs (n + rows.length) (rows.foldl (processRow ("time" :: vs)) d) := by
  intro rows
  induction rows with
  | nil => intro _ n d h; simpa using h
  | cons r rs ih =>
      intro hrows n d h
      have h1 := processRow_inv vs hnd hnt r (hrows r (by simp)) n d h
      have h2 := ih (fun q hq => hrows q (by simp [hq])) (n + 1) _ h1
      simp only [List.foldl_cons]
      rw [show n + (r :: rs).length = (n + 1) + rs.length by
        simp only [List.length_cons]; omega]
      exact h2

theorem load_init_inv (vs : List String) (hnd : vs.Nodup) (hnt : "time" ∉ vs) :
    LoadInv vs 0 (initColumns ("time" :: vs) [("time", [])]) := by
  have hstep : initColumns ("time" :: vs) [("time", [])]
      = initColumns vs [("time", [])] := by
    rw [initColumns_cons]
    simp
  rw [hstep]
  constructor
  · refine ⟨[], ?_, rfl⟩
    rw [initColumns_get_time]
    rfl
  · intro j hj
    have hkeymem : vs.getD j "" ∈ vs := by
      rw [List.getD_eq_getElem vs "" hj]
      exact List.getElem_mem hj
    have hne : vs.getD j "" ≠ "time" := fun h => hnt (h ▸ hkeymem)
    exact ⟨[], initColumns_get_mem vs _ _ hkeymem hne hnd, rfl⟩

/-- Claim C6: for every well-formed storage file (unique column labels with
`time` listed first, every row holding one data value per non-time label),
the mapping returned by `load_storage_to_dict` contains a `time` key and one
key per non-time column label, and every non-time column's sequence length
equals the time column's sequence length. -/
theorem load_storage_to_dict_lengths (s : Storage) (vs : List String)
    (hlab : s.labels = "time" :: vs) (hnd : vs.Nodup) (hnt : "time" ∉ vs)
    (hrows : ∀ r ∈ s.rows, r.2.length = vs.length) :
    ∃ ts, alistGet (load_storage_to_dict s) "time" = some ts ∧
      ∀ v ∈ vs, ∃ c, alistGet (load_storage_to_dict s) v = some c ∧
        c.length = ts.length := by
  have hinv := loadFold_inv vs hnd hnt s.rows hrows 0
    (initColumns ("time" :: vs) [("time", [])]) (load_init_inv vs hnd hnt)
  unfold load_storage_to_dict
  rw [hlab]
  obtain ⟨⟨ts, hts, htslen⟩, hcols⟩ := hinv
  refine ⟨ts, hts, ?_⟩
  intro v hv
  obtain ⟨j, hvj⟩ := List.mem_iff_get.mp hv
  obtain ⟨c, hc, hclen⟩ := hcols j.1 j.2
  have hgv : vs.getD j.1 "" = v := by
    rw [List.getD_eq_getElem vs "" j.2, ← hvj]
    rfl
  rw [hgv] at hc
  exact ⟨c, hc, by rw [hclen, htslen]⟩

/-- Witness for C6 at a concrete two-column, two-row storage. -/
theorem load_storage_to_dict_lengths_witness :
    ∃ ts, alistGet (load_storage_to_dict
        ⟨["time", "a", "b"], [(0, [1, 2]), (1, [3, 4])]⟩) "time" = some ts ∧
      ∀ v ∈ ["a", "b"], ∃ c, alistGet (load_storage_to_dict
        ⟨["time", "a", "b"], [(0, [1, 2]), (1, [3, 4])]⟩) v = some c ∧
        c.length = ts.length :=
  load_storage_to_dict_lengths ⟨["time", "a", "b"], [(0, [1, 2]), (1, [3, 4])]⟩
    ["a", "b"] rfl (by decide) (by decide) (by decide)

/-! ## util.py: save_results_summary and its JSON model

`save_results_summary` delegates serialization to Python's `json.dump`
with `indent=2`; re-reading uses `json.load`.  Both are modelled here
concretely for the flat dictionaries of scalars this repository writes:
`json_dumps` reproduces `json.dumps(d, indent=2)` character for character
(for keys and string values made of printable ASCII without `"` or `\`,
which is what the repository produces), and `json_loads` is a parser for
flat JSON objects of such scalars. -/

/-- A JSON scalar value: integer number, string, boolean, or null. -/
inductive JsonScalar where
  | num (n : Int)
  | str (s : String)
  | bool (b : Bool)
  | null
deriving DecidableEq, Repr

/-- The decimal digit character for a digit `d < 10`. -/
def digitToChar (d : ℕ) : Char :=
  match d with
  | 0 => '0' | 1 => '1' | 2 => '2' | 3 => '3' | 4 => '4'
  | 5 => '5' | 6 => '6' | 7 => '7' | 8 => '8' | _ => '9'

/-- Decimal digit characters of `n`, most significant first. -/
def natDigitChars (n : ℕ) : List Char := ((Nat.digits 10 n).map digitToChar).reverse

/-- Decimal rendering of a natural number (with `"0"` for zero). -/
def renderNat (n : ℕ) : List Char := if n = 0 then ['0'] else natDigitChars n

/-- Decimal rendering of an integer, as `json.dumps` prints Python ints. -/
def renderInt (i : Int) : List Char :=
  if i < 0 then '-' :: renderNat i.natAbs else renderNat i.toNat

/-- Rendering of a JSON scalar, as `json.dumps` prints it. -/
def renderScalar : JsonScalar → List Char
  | .num i => renderInt i
  | .str s => '"' :: (s.data ++ ['"'])
  | .bool true => ['t', 'r', 'u', 'e']
  | .bool false => ['f', 'a', 'l', 's', 'e']
  | .null => ['n', 'u', 'l', 'l']

/-- Rendering of one `"key": value` object entry. -/
def renderEntry (kv : String × JsonScalar) : List Char :=
  '"' :: (kv.1.data ++ ('"' :: ':' :: ' ' :: renderScalar kv.2))

/-- Rendering of the object entries joined by `",\n  "`. -/
def renderEntries : List (String × JsonScalar) → List Char
  | [] => []
  | [kv] => renderEntry kv
  | kv :: kv2 :: rest =>
      renderEntry kv ++ (',' :: '\n' :: ' ' :: ' ' :: renderEntries (kv2 :: rest))

/-- Model of `json.dumps(d, indent=2)` on a flat dictionary. -/
def json_dumps (d : List (String × JsonScalar)) : String :=
  match d with
  | [] => String.mk ['{', '}']
  | _ => String.mk ('{' :: '\n' :: ' ' :: ' ' :: (renderEntries d ++ ['\n', '}']))

/-- JSON whitespace characters. -/
def isWsChar (c : Char) : Bool := c = ' ' || c = '\n' || c = '\t' || c = '\r'

/-- Skip leading JSON whitespace. -/
def skipWs (cs : List Char) : List Char := cs.dropWhile isWsChar

/-- Decimal digit test. -/
def isDigitChar (c : Char) : Bool := '0' ≤ c && c ≤ '9'

/-- Consume one expected character. -/
def expectChar (c : Char) (cs : List Char) : Option (List Char) :=
  match cs with
  | [] => none
  | x :: rest => if x = c then some rest else none

/-- Consume the characters of a string literal up to its closing quote
(the opening quote has already been consumed). -/
def parseKeyChars : List Char → Option (List Char × List Char)
  | [] => none
  | c :: cs =>
      if c = '"' then some ([], cs)
      else
        match parseKeyChars cs with
        | some (s, r) => some (c :: s, r)
        | none => none

/-- Numeric value of a most-significant-first digit-character list. -/
def digitsToNat (ds : List Char) : ℕ := ds.foldl (fun a c => 10 * a + (c.toNat - 48)) 0

/-- Parse a (possibly negative) decimal integer. -/
def parseNum (cs : List Char) : Option (Int × List Char) :=
  match cs with
  | [] => none
  | c :: rest =>
      if c = '-' then
        let ds := rest.takeWhile isDigitChar
        if ds = [] then none
        else some (-(digitsToNat ds : Int), rest.drop ds.length)
      else
        let ds := (c :: rest).takeWhile isDigitChar
        if ds = [] then none
        else some ((digitsToNat ds : Int), (c :: rest).drop ds.length)

/-- Parse one JSON scalar. -/
def parseScalar (cs : List Char) : Option (JsonScalar × List Char) :=
  match cs with
  | [] => none
  | c :: rest =>
      if c = '"' then
        match parseKeyChars rest with
        | some (s, r) => some (.str (String.mk s), r)
        | none => none
      else if (c :: rest).take 4 = ['t', 'r', 'u', 'e'] then
        some (.bool true, (c :: rest).drop 4)
      else if (c :: rest).take 5 = ['f', 'a', 'l', 's', 'e'] then
        some (.bool false, (c :: rest).drop 5)
      else if (c :: rest).take 4 = ['n', 'u', 'l', 'l'] then
        some (.null, (c :: rest).drop 4)
      else
        match parseNum (c :: rest) with
        | some (i, r) => some (.num i, r)
        | none => none

/-- Parse the `"key": value` entries of a non-empty flat JSON object,
finishing at the closing brace (fuelled recursion). -/
def parseEntriesLoop : ℕ → List Char → Option (List (String × JsonScalar))
  | 0, _ => none
  | fuel + 1, cs =>
      match expectChar '"' (skipWs cs) with
      | none => none
      | some r0 =>
        match parseKeyChars r0 with
        | none => none
        | some (k, r1) =>
          match expectChar ':' (skipWs r1) with
          | none => none
          | some r2 =>
            match parseScalar (skipWs r2) with
            | none => none
            | some (v, r3) =>
              match expectChar ',' (skipWs r3) with
              | some r4 =>
                  match parseEntriesLoop fuel r4 with
                  | some es => some ((String.mk k, v) :: es)
                  | none => none
              | none =>
                match expectChar '}' (skipWs r3) with
                | some r4 => if skipWs r4 = [] then some [(String.mk k, v)] else none
                | none => none

/-- Model of `json.load` on a flat JSON object of scalars: rejects
leading/trailing junk, accepts whitespace between tokens. -/
def json_loads (s : String) : Option (List (String × JsonScalar)) :=
  match expectChar '{' (skipWs s.data) with
  | none => none
  | some rest =>
      match skipWs rest with
      | [] => none
      | c :: r =>
          if c = '}' then (if skipWs r = [] then some [] else none)
          else parseEntriesLoop (s.data.length + 1) rest

/-- Model of `save_results_summary(output_dir, results_dict)`: writes the
indented JSON to `output_dir/results_summary.json` (the filesystem is the
path-to-content map `fs`) and returns that path. -/
def save_results_summary (fs : List (String × String)) (output_dir : String)
    (results_dict : List (String × JsonScalar)) : List (String × String) × String :=
  let summary_file := output_dir ++ "/results_summary.json"
  (alistSet fs summary_file (json_dumps results_dict), summary_file)

/-- A character `json.dumps` passes through verbatim inside a string
literal: printable ASCII that is neither the quote nor the backslash. -/
def GoodChar (c : Char) : Prop := c ≠ '"' ∧ c ≠ '\\' ∧ 32 ≤ c.toNat ∧ c.toNat < 127

instance : DecidablePred GoodChar := fun c => by
  unfold GoodChar
  infer_instance

/-- A string `json.dumps` emits verbatim between quotes. -/
def GoodString (s : String) : Prop := ∀ c ∈ s.data, GoodChar c

instance : DecidablePred GoodString := fun s => by
  unfold GoodString
  infer_instance

/-- A dictionary whose keys and string values are all `GoodString`s. -/
def GoodDict (d : List (String × JsonScalar)) : Prop :=
  ∀ kv ∈ d, GoodString kv.1 ∧ ∀ s, kv.2 = .str s → GoodString s

instance decidableGoodVal (v : JsonScalar) :
    Decidable (∀ s, v = JsonScalar.str s → GoodString s) :=
  match v with
  | .str s =>
      decidable_of_iff (GoodString s) (by
        constructor
        · intro h s' hs'
          injection hs' with h2
          subst h2
          exact h
        · intro h
          exact h s rfl)
  | .num _ => isTrue (fun _ hs => nomatch hs)
  | .bool _ => isTrue (fun _ hs => nomatch hs)
  | .null => isTrue (fun _ hs => nomatch hs)

instance : DecidablePred GoodDict := fun d => by
  unfold GoodDict
  infer_instance

/-! ## Round-trip lemmas: characters and numbers -/

theorem string_mk_data (s : String) : String.mk s.data = s := by
  cases s
  rfl

theorem skipWs_cons_of_not (c : Char) (cs : List Char) (h : isWsChar c = false) :
    skipWs (c :: cs) = c :: cs := by
  simp [skipWs, List.dropWhile, h]

theorem skipWs_cons_of (c : Char) (cs : List Char) (h : isWsChar c = true) :
    skipWs (c :: cs) = skipWs cs := by
  simp [skipWs, List.dropWhile, h]

theorem expectChar_self (c : Char) (cs : List Char) :
    expectChar c (c :: cs) = some cs := by
  simp [expectChar]

theorem digitToChar_isDigit (d : ℕ) (h : d < 10) :
    isDigitChar (digitToChar d) = true ∧ (digitToChar d).toNat - 48 = d := by
  interval_cases d <;> exact ⟨by decide, by decide⟩

theorem digit_ne_quote (c : Char) (h : isDigitChar c = true) : c ≠ '"' := by
  intro heq
  subst heq
  exact absurd h (by decide)

theorem digit_ne_dash (c : Char) (h : isDigitChar c = true) : c ≠ '-' := by
  intro heq
  subst heq
  exact absurd h (by decide)

theorem digit_ne_t (c : Char) (h : isDigitChar c = true) : c ≠ 't' := by
  intro heq
  subst heq
  exact absurd h (by decide)

theorem digit_ne_f (c : Char) (h : isDigitChar c = true) : c ≠ 'f' := by
  intro heq
  subst heq
  exact absurd h (by decide)

theorem digit_ne_n (c : Char) (h : isDigitChar c = true) : c ≠ 'n' := by
  intro heq
  subst heq
  exact absurd h (by decide)

theorem digit_not_ws (c : Char) (h : isDigitChar c = true) : isWsChar c = false := by
  by_contra hw
  have hw' : isWsChar c = true := by
    cases hN : isWsChar c
    · exact absurd hN hw
    · rfl
  simp only [isWsChar, Bool.or_eq_true, decide_eq_true_eq] at hw'
  rcases hw' with ((h1 | h1) | h1) | h1 <;> subst h1 <;> exact absurd h (by decide)

theorem takeWhile_digits_append (l r : List Char) (hl : ∀ c ∈ l, isDigitChar c = true)
    (hr : ∀ c, r.head? = some c → isDigitChar c = false) :
    (l ++ r).takeWhile isDigitChar = l ∧ (l ++ r).drop l.length = r := by
  refine ⟨?_, List.drop_left l r⟩
  induction l with
  | nil =>
      cases r with
      | nil => rfl
      | cons c cs =>
          have hc := hr c rfl
          simp [List.takeWhile_cons, hc]
  | cons x xs ih =>
      have hx : isDigitChar x = true := hl x (by simp)
      have hxs : ∀ c ∈ xs, isDigitChar c = true := fun c hc => hl c (by simp [hc])
      simp [List.takeWhile_cons, hx, ih hxs]

theorem natDigitChars_digits (n : ℕ) : ∀ c ∈ natDigitChars n, isDigitChar c = true := by
  intro c hc
  unfold natDigitChars at hc
  rw [List.mem_reverse] at hc
  obtain ⟨d, hd, hdc⟩ := List.mem_map.mp hc
  have hd10 : d < 10 := Nat.digits_lt_base (by norm_num) hd
  rw [← hdc]
  exact (digitToChar_isDigit d hd10).1

theorem renderNat_digits (n : ℕ) : ∀ c ∈ renderNat n, isDigitChar c = true := by
  intro c hc
  unfold renderNat at hc
  by_cases h : n = 0
  · rw [if_pos h] at hc
    simp only [List.mem_singleton] at hc
    subst hc
    decide
  · rw [if_neg h] at hc
    exact natDigitChars_digits n c hc

theorem renderNat_ne_nil (n : ℕ) : renderNat n ≠ [] := by
  unfold renderNat
  by_cases h : n = 0
  · simp [h]
  · rw [if_neg h]
    unfold natDigitChars
    simp only [ne_eq, List.reverse_eq_nil_iff, List.map_eq_nil_iff]
    exact Nat.digits_ne_nil_iff_ne_zero.mpr h

theorem foldl_digits_ofDigits (ds : List ℕ) (h : ∀ d ∈ ds, d < 10) :
    ((ds.map digitToChar).reverse).foldl (fun a c => 10 * a + (c.toNat - 48)) 0
      = Nat.ofDigits 10 ds := by
  induction ds with
  | nil => simp [Nat.ofDigits]
  | cons d ds ih =>
      have hd : d < 10 := h d (by simp)
      have hds : ∀ x ∈ ds, x < 10 := fun x hx => h x (by simp [hx])
      simp only [List.map_cons, List.reverse_cons, List.foldl_append, List.foldl_cons,
        List.foldl_nil]
      rw [ih hds, (digitToChar_isDigit d hd).2, Nat.ofDigits_cons]
      ring

theorem digitsToNat_renderNat (n : ℕ) : digitsToNat (renderNat n) = n := by
  unfold renderNat
  by_cases h : n = 0
  · rw [if_pos h, h]
    decide
  · rw [if_neg h]
    unfold digitsToNat natDigitChars
    rw [foldl_digits_ofDigits _ (fun d hd => Nat.digits_lt_base (by norm_num) hd)]
    exact Nat.ofDigits_digits 10 n

theorem parseNum_render (i : Int) (rest : List Char)
    (hr : ∀ c, rest.head? = some c → isDigitChar c = false) :
    parseNum (renderInt i ++ rest) = some (i, rest) := by
  unfold renderInt
  by_cases hi : i < 0
  · rw [if_pos hi]
    obtain ⟨htake, hdrop⟩ :=
      takeWhile_digits_append (renderNat i.natAbs) rest (renderNat_digits _) hr
    have hds : renderNat i.natAbs ≠ [] := renderNat_ne_nil _
    simp only [List.cons_append]
    have hstep : parseNum ('-' :: (renderNat i.natAbs ++ rest)) =
        (if (renderNat i.natAbs ++ rest).takeWhile isDigitChar = [] then none
         else some (-(digitsToNat ((renderNat i.natAbs ++ rest).takeWhile isDigitChar) : Int),
           (renderNat i.natAbs ++ rest).drop
             ((renderNat i.natAbs ++ rest).takeWhile isDigitChar).length)) := rfl
    rw [hstep, htake, if_neg hds, hdrop, digitsToNat_renderNat]
    have hval : -((i.natAbs : ℕ) : Int) = i := by omega
    rw [hval]
  · rw [if_neg hi]
    obtain ⟨c, cs', hc⟩ : ∃ c cs', renderNat i.toNat = c :: cs' := by
      cases h : renderNat i.toNat with
      | nil => exact absurd h (renderNat_ne_nil _)
      | cons a l => exact ⟨a, l, rfl⟩
    have hcd : isDigitChar c = true := renderNat_digits i.toNat c (by rw [hc]; simp)
    have hcne : c ≠ '-' := digit_ne_dash c hcd
    obtain ⟨htake, hdrop⟩ :=
      takeWhile_digits_append (renderNat i.toNat) rest (renderNat_digits _) hr
    rw [hc] at htake hdrop
    simp only [List.cons_append] at htake hdrop
    rw [hc]
    simp only [List.cons_append]
    have hstep : parseNum (c :: (cs' ++ rest)) =
        (if c = '-' then
          (if (cs' ++ rest).takeWhile isDigitChar = [] then none
           else some (-(digitsToNat ((cs' ++ rest).takeWhile isDigitChar) : Int),
             (cs' ++ rest).drop ((cs' ++ rest).takeWhile isDigitChar).length))
         else
          (if (c :: (cs' ++ rest)).takeWhile isDigitChar = [] then none
           else some ((digitsToNat ((c :: (cs' ++ rest)).takeWhile isDigitChar) : Int),
             (c :: (cs' ++ rest)).drop
               ((c :: (cs' ++ rest)).takeWhile isDigitChar).length))) := rfl
    have hds : (c :: cs') ≠ [] := by simp
    rw [hstep, if_neg hcne, htake, if_neg hds, hdrop]
    have hdn : digitsToNat (c :: cs') = i.toNat := by
      rw [← hc]
      exact digitsToNat_renderNat _
    rw [hdn]
    have hval : ((i.toNat : ℕ) : Int) = i := by omega
    rw [hval]

/-! ## Round-trip lemmas: string literals and scalars -/

theorem parseKeyChars_append (k : List Char) (rest : List Char)
    (hk : ∀ c ∈ k, c ≠ '"') :
    parseKeyChars (k ++ '"' :: rest) = some (k, rest) := by
  induction k with
  | nil => simp [parseKeyChars]
  | cons c k' ih =>
      have hc : c ≠ '"' := hk c (by simp)
      have hk' : ∀ x ∈ k', x ≠ '"' := fun x hx => hk x (by simp [hx])
      simp only [List.cons_append]
      have hstep : parseKeyChars (c :: (k' ++ '"' :: rest)) =
          (if c = '"' then some (([] : List Char), k' ++ '"' :: rest)
           else match parseKeyChars (k' ++ '"' :: rest) with
             | some (s, r) => some (c :: s, r)
             | none => none) := rfl
      rw [hstep, if_neg hc, ih hk']

theorem parseScalar_cons (c : Char) (rest : List Char) :
    parseScalar (c :: rest) =
      (if c = '"' then
        match parseKeyChars rest with
        | some (s, r) => some (JsonScalar.str (String.mk s), r)
        | none => none
      else if (c :: rest).take 4 = ['t', 'r', 'u', 'e'] then
        some (.bool true, (c :: rest).drop 4)
      else if (c :: rest).take 5 = ['f', 'a', 'l', 's', 'e'] then
        some (.bool false, (c :: rest).drop 5)
      else if (c :: rest).take 4 = ['n', 'u', 'l', 'l'] then
        some (.null, (c :: rest).drop 4)
      else
        match parseNum (c :: rest) with
        | some (i, r) => some (.num i, r)
        | none => none) := rfl

theorem take_four_cons_ne (c : Char) (X : List Char) (w : Char) (ws : List Char)
    (hcw : c ≠ w) : (c :: X).take 4 ≠ w :: ws := by
  simp only [List.take_succ_cons]
  intro h
  injection h with h1 _
  exact hcw h1

theorem take_five_cons_ne (c : Char) (X : List Char) (w : Char) (ws : List Char)
    (hcw : c ≠ w) : (c :: X).take 5 ≠ w :: ws := by
  simp only [List.take_succ_cons]
  intro h
  injection h with h1 _
  exact hcw h1

theorem parseScalar_render (v : JsonScalar) (tail : List Char)
    (htail : ∀ c, tail.head? = some c → isDigitChar c = false)
    (hstr : ∀ s, v = .str s → GoodString s) :
    parseScalar (renderScalar v ++ tail) = some (v, tail) := by
  cases v with
  | num i =>
      by_cases hi : i < 0
      · have hre : renderScalar (.num i) ++ tail
            = '-' :: (renderNat i.natAbs ++ tail) := by
          simp [renderScalar, renderInt, hi]
        rw [hre, parseScalar_cons,
          if_neg (by decide : ¬ ('-' : Char) = '"'),
          if_neg (take_four_cons_ne _ _ _ _ (by decide)),
          if_neg (take_five_cons_ne _ _ _ _ (by decide)),
          if_neg (take_four_cons_ne _ _ _ _ (by decide)),
          ← hre]
        have hP : renderScalar (JsonScalar.num i) ++ tail = renderInt i ++ tail := rfl
        rw [hP, parseNum_render i tail htail]
      · obtain ⟨c, cs', hc⟩ : ∃ c cs', renderNat i.toNat = c :: cs' := by
          cases h : renderNat i.toNat with
          | nil => exact absurd h (renderNat_ne_nil _)
          | cons a l => exact ⟨a, l, rfl⟩
        have hcd : isDigitChar c = true :=
          renderNat_digits i.toNat c (by rw [hc]; simp)
        have hre : renderScalar (.num i) ++ tail = c :: (cs' ++ tail) := by
          simp [renderScalar, renderInt, hi, hc]
        rw [hre, parseScalar_cons,
          if_neg (digit_ne_quote c hcd),
          if_neg (take_four_cons_ne _ _ _ _ (digit_ne_t c hcd)),
          if_neg (take_five_cons_ne _ _ _ _ (digit_ne_f c hcd)),
          if_neg (take_four_cons_ne _ _ _ _ (digit_ne_n c hcd)),
          ← hre]
        have hP : renderScalar (JsonScalar.num i) ++ tail = renderInt i ++ tail := rfl
        rw [hP, parseNum_render i tail htail]
  | str s =>
      have hk : ∀ c ∈ s.data, c ≠ '"' := fun c hc => ((hstr s rfl) c hc).1
      have hre : renderScalar (.str s) ++ tail = '"' :: (s.data ++ '"' :: tail) := by
        simp [renderScalar]
      rw [hre, parseScalar_cons, if_pos rfl, parseKeyChars_append s.data tail hk]
  | bool b =>
      cases b
      · have hre : renderScalar (.bool false) ++ tail
            = 'f' :: 'a' :: 'l' :: 's' :: 'e' :: tail := by
          simp [renderScalar]
        rw [hre, parseScalar_cons]
        simp
      · have hre : renderScalar (.bool true) ++ tail
            = 't' :: 'r' :: 'u' :: 'e' :: tail := by
          simp [renderScalar]
        rw [hre, parseScalar_cons]
        simp
  | null =>
      have hre : renderScalar .null ++ tail = 'n' :: 'u' :: 'l' :: 'l' :: tail := by
        simp [renderScalar]
      rw [hre, parseScalar_cons]
      simp

/-! ## Round-trip lemmas: the object-entry loop -/

theorem skipWs_renderScalar (v : JsonScalar) (tail : List Char) :
    skipWs (renderScalar v ++ tail) = renderScalar v ++ tail := by
  cases v with
  | num i =>
      show skipWs (renderInt i ++ tail) = renderInt i ++ tail
      unfold renderInt
      by_cases hi : i < 0
      · rw [if_pos hi]
        simp only [List.cons_append]
        exact skipWs_cons_of_not _ _ (by decide)
      · rw [if_neg hi]
        obtain ⟨c, cs', hc⟩ : ∃ c cs', renderNat i.toNat = c :: cs' := by
          cases h : renderNat i.toNat with
          | nil => exact absurd h (renderNat_ne_nil _)
          | cons a l => exact ⟨a, l, rfl⟩
        have hcd : isDigitChar c = true :=
          renderNat_digits i.toNat c (by rw [hc]; simp)
        rw [hc]
        simp only [List.cons_append]
        exact skipWs_cons_of_not _ _ (digit_not_ws c hcd)
  | str s =>
      show skipWs ('\x22' :: (s.data ++ ['\x22']) ++ tail)
        = '\x22' :: (s.data ++ ['\x22']) ++ tail
      simp only [List.cons_append]
      exact skipWs_cons_of_not _ _ (by decide)
  | bool b =>
      cases b
      · show skipWs (['f', 'a', 'l', 's', 'e'] ++ tail) = ['f', 'a', 'l', 's', 'e'] ++ tail
        simp only [List.cons_append]
        exact skipWs_cons_of_not _ _ (by decide)
      · show skipWs (['t', 'r', 'u', 'e'] ++ tail) = ['t', 'r', 'u', 'e'] ++ tail
        simp only [List.cons_append]
        exact skipWs_cons_of_not _ _ (by decide)
  | null =>
      show skipWs (['n', 'u', 'l', 'l'] ++ tail) = ['n', 'u', 'l', 'l'] ++ tail
      simp only [List.cons_append]
      exact skipWs_cons_of_not _ _ (by decide)

theorem parseEntriesLoop_step (f : ℕ) (kv : String × JsonScalar) (T : List Char)
    (hkey : ∀ c ∈ kv.1.data, c ≠ '"')
    (hstr : ∀ s, kv.2 = .str s → GoodString s)
    (hT : ∀ c, T.head? = some c → isDigitChar c = false) :
    parseEntriesLoop (f + 1) ('\n' :: ' ' :: ' ' :: (renderEntry kv ++ T)) =
      (match expectChar ',' (skipWs T) with
       | some r4 =>
           match parseEntriesLoop f r4 with
           | some es => some (kv :: es)
           | none => none
       | none =>
           match expectChar '}' (skipWs T) with
           | some r4 => if skipWs r4 = [] then some [kv] else none
           | none => none) := by
  have hcs : renderEntry kv ++ T
      = '"' :: (kv.1.data ++ ('"' :: ':' :: ' ' :: (renderScalar kv.2 ++ T))) := by
    simp [renderEntry, List.append_assoc]
  have h1 : skipWs ('\n' :: ' ' :: ' ' ::
      ('"' :: (kv.1.data ++ ('"' :: ':' :: ' ' :: (renderScalar kv.2 ++ T)))))
      = '"' :: (kv.1.data ++ ('"' :: ':' :: ' ' :: (renderScalar kv.2 ++ T))) := by
    rw [skipWs_cons_of _ _ (by decide), skipWs_cons_of _ _ (by decide),
      skipWs_cons_of _ _ (by decide)]
    exact skipWs_cons_of_not _ _ (by decide)
  have h2 : skipWs (':' :: ' ' :: (renderScalar kv.2 ++ T))
      = ':' :: ' ' :: (renderScalar kv.2 ++ T) :=
    skipWs_cons_of_not _ _ (by decide)
  have h3 : skipWs (' ' :: (renderScalar kv.2 ++ T)) = renderScalar kv.2 ++ T := by
    rw [skipWs_cons_of _ _ (by decide)]
    exact skipWs_renderScalar kv.2 T
  rw [hcs]
  simp only [parseEntriesLoop, h1, expectChar_self, parseKeyChars_append _ _ hkey, h2, h3,
    parseScalar_render kv.2 T hT hstr]

theorem renderEntries_length_ge :
    ∀ (d : List (String × JsonScalar)), d.length ≤ (renderEntries d).length := by
  intro d
  induction d with
  | nil => simp [renderEntries]
  | cons kv rest ih =>
      cases rest with
      | nil => simp [renderEntries, renderEntry]
      | cons kv2 rs =>
          have hlen : (renderEntries (kv :: kv2 :: rs)).length
              = (renderEntry kv).length + 4 + (renderEntries (kv2 :: rs)).length := by
            simp only [renderEntries, List.length_append, List.length_cons]
            omega
          have hone : 1 ≤ (renderEntry kv).length := by
            simp [renderEntry]
          have hstep : (kv :: kv2 :: rs).length = (kv2 :: rs).length + 1 := by
            simp
          omega

theorem parseEntriesLoop_renders :
    ∀ (d : List (String × JsonScalar)), d ≠ [] → GoodDict d →
    ∀ (fuel : ℕ), d.length ≤ fuel →
    parseEntriesLoop fuel ('\n' :: ' ' :: ' ' :: (renderEntries d ++ ['\n', '}']))
      = some d := by
  intro d
  induction d with
  | nil => intro h; exact absurd rfl h
  | cons kv rest ih =>
      intro _ hgood fuel hfuel
      obtain ⟨f, rfl⟩ : ∃ f, fuel = f + 1 := by
        cases fuel with
        | zero => simp at hfuel
        | succ f => exact ⟨f, rfl⟩
      have hkv := hgood kv (by simp)
      have hkey : ∀ c ∈ kv.1.data, c ≠ '"' := fun c hc => (hkv.1 c hc).1
      cases rest with
      | nil =>
          have hT : ∀ c, (['\n', '}'] : List Char).head? = some c →
              isDigitChar c = false := by
            intro c hc
            simp only [List.head?_cons, Option.some.injEq] at hc
            subst hc
            decide
          have hstep := parseEntriesLoop_step f kv ['\n', '}'] hkey
            (fun s hs => hkv.2 s hs) hT
          rw [show renderEntries [kv] = renderEntry kv from rfl, hstep]
          rfl
      | cons kv2 rs =>
          have hgood' : GoodDict (kv2 :: rs) := fun q hq => hgood q (by simp [hq])
          have hfuel' : (kv2 :: rs).length ≤ f := by
            simp only [List.length_cons] at hfuel ⊢
            omega
          have hT : ∀ c, (',' :: '\n' :: ' ' :: ' ' ::
              (renderEntries (kv2 :: rs) ++ ['\n', '}'])).head? = some c →
              isDigitChar c = false := by
            intro c hc
            simp only [List.head?_cons, Option.some.injEq] at hc
            subst hc
            decide
          have harr : renderEntries (kv :: kv2 :: rs) ++ ['\n', '}']
              = renderEntry kv ++ (',' :: '\n' :: ' ' :: ' ' ::
                  (renderEntries (kv2 :: rs) ++ ['\n', '}'])) := by
            simp [renderEntries, List.append_assoc]
          rw [harr, parseEntriesLoop_step f kv _ hkey (fun s hs => hkv.2 s hs) hT]
          have hsk : skipWs (',' :: '\n' :: ' ' :: ' ' ::
              (renderEntries (kv2 :: rs) ++ ['\n', '}']))
              = ',' :: '\n' :: ' ' :: ' ' ::
                  (renderEntries (kv2 :: rs) ++ ['\n', '}']) :=
            skipWs_cons_of_not _ _ (by decide)
          simp only [hsk, expectChar_self, ih (by simp) hgood' f hfuel']

theorem json_loads_dumps (d : List (String × JsonScalar)) (hgood : GoodDict d) :
    json_loads (json_dumps d) = some d := by
  cases d with
  | nil => rfl
  | cons kv rest =>
      unfold json_loads
      have hdata : (json_dumps (kv :: rest)).data
          = '{' :: '\n' :: ' ' :: ' ' :: (renderEntries (kv :: rest) ++ ['\n', '}']) := rfl
      rw [hdata]
      have h0 : skipWs ('{' :: '\n' :: ' ' :: ' ' ::
          (renderEntries (kv :: rest) ++ ['\n', '}']))
          = '{' :: '\n' :: ' ' :: ' ' ::
              (renderEntries (kv :: rest) ++ ['\n', '}']) :=
        skipWs_cons_of_not _ _ (by decide)
      obtain ⟨E, hE⟩ : ∃ E, renderEntries (kv :: rest) = '"' :: E := by
        cases rest with
        | nil => exact ⟨_, rfl⟩
        | cons q qs => exact ⟨_, rfl⟩
      have h1 : skipWs ('\n' :: ' ' :: ' ' ::
          (renderEntries (kv :: rest) ++ ['\n', '}']))
          = '"' :: (E ++ ['\n', '}']) := by
        rw [skipWs_cons_of _ _ (by decide), skipWs_cons_of _ _ (by decide),
          skipWs_cons_of _ _ (by decide), hE]
        simp only [List.cons_append]
        exact skipWs_cons_of_not _ _ (by decide)
      simp only [h0, expectChar_self, h1]
      rw [if_neg (by decide : ¬('"' : Char) = '}')]
      apply parseEntriesLoop_renders (kv :: rest) (by simp) hgood
      have hlen := renderEntries_length_ge (kv :: rest)
      simp only [hdata, List.length_cons, List.length_append, List.length_cons,
        List.length_nil, List.length_cons] at hlen ⊢
      omega

/-- Claim C9: `save_results_summary` writes `output_dir/results_summary.json`
and returns that path; the file's content is the indented JSON of the input
dictionary, and parsing it back yields a dictionary equal to the input
(round-trip identity), for dictionaries of JSON scalars whose keys and
string values are printable ASCII without quotes or backslashes. -/
theorem save_results_summary_roundtrip (fs : List (String × String))
    (output_dir : String) (d : List (String × JsonScalar))
    (hgood : GoodDict d) (_hnd : (d.map Prod.fst).Nodup) :
    (save_results_summary fs output_dir d).2 = output_dir ++ "/results_summary.json" ∧
    alistGet (save_results_summary fs output_dir d).1
        (output_dir ++ "/results_summary.json") = some (json_dumps d) ∧
    json_loads (json_dumps d) = some d := by
  refine ⟨rfl, ?_, json_loads_dumps d hgood⟩
  exact alistGet_alistSet_same fs _ _

/-- Witness for C9 at a concrete summary dictionary. -/
theorem save_results_summary_roundtrip_witness :
    (save_results_summary [] "out"
        [("mean_power_W", .num 250), ("total_energy_J", .num 3000),
         ("duration_s", .num 12)]).2 = "out" ++ "/results_summary.json" ∧
    alistGet (save_results_summary [] "out"
        [("mean_power_W", .num 250), ("total_energy_J", .num 3000),
         ("duration_s", .num 12)]).1 ("out" ++ "/results_summary.json")
      = some (json_dumps [("mean_power_W", .num 250), ("total_energy_J", .num 3000),
         ("duration_s", .num 12)]) ∧
    json_loads (json_dumps [("mean_power_W", .num 250), ("total_energy_J", .num 3000),
         ("duration_s", .num 12)])
      = some [("mean_power_W", .num 250), ("total_energy_J", .num 3000),
         ("duration_s", .num 12)] :=
  save_results_summary_roundtrip [] "out"
    [("mean_power_W", .num 250), ("total_energy_J", .num 3000), ("duration_s", .num 12)]
    (by decide) (by decide)
